import Mathlib

/-!
Verification of the sku-buddy reconciliation pipeline (src/app.py).

The program manipulates pandas DataFrames; we embed a DataFrame as a
`Relation`: an ordered list of column labels together with an ordered list
of rows, each row an ordered list of nullable string cells.  Every
definition below is a direct translation of the corresponding Python code:

* `rename_duplicate_columns`  — app.py lines 50-61;
* `normKey` / `normSku`       — the in-place normalization, lines 168-173
  (`fillna('').astype(str).str.strip().str.lower()` resp. without lower);
* `Relation.renameTwo`        — `df.rename(columns={...})`, lines 181-188,
  including the Python-dict collapse when both keys coincide;
* `Relation.merge`            — `pd.merge(..., on='match_key', how='inner')`,
  lines 190-195 (cross product of equal keys, left order preserved,
  overlapping non-key labels suffixed);
* `mismatchRows`              — lines 199-202;
* `matchStage`                — the whole Step-4 handler, lines 158-206,
  with `st.stop()` on missing selectors and on a KeyError;
* `overwriteStage`            — the overwrite handler, lines 209-214;
* `unmatchedStage`            — the unmatched-set calculation, lines 217-219.
-/

/-- A nullable scalar cell of a relation (pandas value or NaN). -/
abbrev Cell := Option String

/-- A row: ordered list of cells, one per column. -/
abbrev Row := List Cell

/-- Lowercase a string character by character (pandas `.str.lower()`). -/
def lowerStr (s : String) : String := ⟨s.data.map Char.toLower⟩

/-- Strip leading and trailing whitespace (pandas `.str.strip()`). -/
def trimStr (s : String) : String :=
  ⟨((s.data.dropWhile Char.isWhitespace).reverse.dropWhile Char.isWhitespace).reverse⟩

/-- Match-key normalization of app.py lines 168-169:
`fillna('')`, then `.str.strip()`, then `.str.lower()`. -/
def normKey (v : Cell) : String := lowerStr (trimStr (v.getD ""))

/-- SKU normalization of app.py lines 172-173: `fillna('')` then `.str.strip()`. -/
def normSku (v : Cell) : String := trimStr (v.getD "")

/-! ### Duplicate column resolver (app.py lines 50-61)

`rename_duplicate_columns` first computes `cols[cols.duplicated()].unique()`
over the original labels — each label that already occurred earlier, deduped
keeping first — and then, for each such value in turn, walks the current
label list, keeps the first occurrence and replaces later occurrences by
`f"{dup}_{count}"` with `count` starting at 2. -/

/-- `cols.duplicated()` filter: the labels that already appeared earlier,
with multiplicity (`seen` accumulates the labels walked past). -/
def dupOccurrences (seen : List String) : List String → List String
  | [] => []
  | c :: cs =>
    if seen.contains c then c :: dupOccurrences (c :: seen) cs
    else dupOccurrences (c :: seen) cs

/-- `.unique()`: dedup keeping the first occurrence. -/
def dedupFirst (seen : List String) : List String → List String
  | [] => []
  | c :: cs =>
    if seen.contains c then dedupFirst seen cs
    else c :: dedupFirst (c :: seen) cs

/-- `cols[cols.duplicated()].unique()` of app.py line 52. -/
def dupValues (cols : List String) : List String :=
  dedupFirst [] (dupOccurrences [] cols)

/-- The inner loop of app.py lines 53-59 for one duplicated value `dup`:
skip the first occurrence (`count == 1`), rename later occurrences to
`f"{dup}_{count}"` with an incrementing counter. -/
def renameDupAux (dup : String) : List String → Bool → Nat → List String
  | [], _, _ => []
  | c :: cs, seen, count =>
    if c = dup then
      if seen then (dup ++ "_" ++ Nat.repr count) :: renameDupAux dup cs seen (count + 1)
      else c :: renameDupAux dup cs true count
    else c :: renameDupAux dup cs seen count

/-- app.py `rename_duplicate_columns`, acting on the list of column labels. -/
def rename_duplicate_columns (cols : List String) : List String :=
  (dupValues cols).foldl (fun cs d => renameDupAux d cs false 2) cols

/-- Modelled from the spec (§4.2), for comparison with the code: in a single
pass, the k-th occurrence of a label keeps the label when k = 1 and becomes
`label_k` when k ≥ 2; `pre` is the list of labels already passed. -/
def specResolveGo (pre : List String) : List String → List String
  | [] => []
  | c :: rest =>
    (if pre.count c = 0 then c else c ++ "_" ++ Nat.repr (pre.count c + 1)) ::
      specResolveGo (pre ++ [c]) rest

/-- Modelled from the spec (§4.2): the duplicate-column resolution described
by the spec, used to state what `rename_duplicate_columns` computes. -/
def specResolve (cols : List String) : List String := specResolveGo [] cols

/-- Proof-internal intermediate: the single pass of `specResolveGo`
restricted to the labels in `P` (labels outside `P` left untouched). -/
def resolvedUpTo (P : List String) (pre : List String) : List String → List String
  | [] => []
  | c :: rest =>
    (if P.contains c then
      (if pre.count c = 0 then c else c ++ "_" ++ Nat.repr (pre.count c + 1))
     else c) :: resolvedUpTo P (pre ++ [c]) rest

/-- Decode a list of decimal digit characters back to a number
(used to prove that `Nat.repr` is injective). -/
def decodeDigits (l : List Char) : Nat := l.foldl (fun a c => a * 10 + (c.toNat - 48)) 0

/-! ### The Relation data model and the pipeline stages -/

/-- A pandas DataFrame: ordered column labels and ordered rows of cells. -/
structure Relation where
  cols : List String
  rows : List Row
deriving DecidableEq

/-- Position of a column label (pandas column lookup; first match). -/
def Relation.idx? (r : Relation) (c : String) : Option Nat := r.cols.indexOf? c

/-- `df[c] = df[c].map(f)`: elementwise transform of one column in place. -/
def Relation.mapCol (r : Relation) (c : String) (f : Cell → Cell) : Relation :=
  match r.idx? c with
  | some i => ⟨r.cols, r.rows.map (fun row => row.set i (f (row.getD i none)))⟩
  | none => r

/-- `df.rename(columns={k1: v1, k2: v2})`.  A Python dict collapses equal
keys keeping the last value, so when `k1 = k2` only `v2` applies. -/
def renameLabel (k1 v1 k2 v2 c : String) : String :=
  if c = k2 then v2 else if c = k1 then v1 else c

/-- Relation with both column renames of app.py lines 181-188 applied. -/
def Relation.renameTwo (r : Relation) (k1 v1 k2 v2 : String) : Relation :=
  ⟨r.cols.map (renameLabel k1 v1 k2 v2), r.rows⟩

/-- `rename_duplicate_columns` applied to a relation's header. -/
def Relation.renameDupCols (r : Relation) : Relation :=
  ⟨rename_duplicate_columns r.cols, r.rows⟩

/-- Join key comparison: two cells match when both are non-null and equal
(pandas merge never matches NaN). -/
def keyEq : Cell → Cell → Bool
  | some a, some b => a == b
  | _, _ => false

/-- Column labels contributed by the left frame of `pd.merge`: non-key
labels also present on the right are suffixed `_x`. -/
def mergeColsLeft (lc rc : List String) : List String :=
  lc.map (fun c => if c ≠ "match_key" ∧ rc.contains c then c ++ "_x" else c)

/-- Column labels contributed by the right frame of `pd.merge`: the key
column appears only once (from the left); labels also present on the left
are suffixed `_y`. -/
def mergeColsRight (lc rc : List String) : List String :=
  (rc.filter (fun c => c ≠ "match_key")).map
    (fun c => if lc.contains c then c ++ "_y" else c)

/-- Rows of the inner merge: each left row in order, paired with every
right row whose key cell matches (full cross product per key). -/
def joinRows (li : Nat) (ri : Nat) (rrows : List Row) : List Row → List Row
  | [] => []
  | lrow :: rest =>
    ((rrows.filter (fun rrow => keyEq (lrow.getD li none) (rrow.getD ri none))).map
      (fun rrow => lrow ++ rrow.eraseIdx ri)) ++ joinRows li ri rrows rest

/-- `pd.merge(l, r, on='match_key', how='inner')` (app.py lines 190-195). -/
def Relation.merge (l r : Relation) : Relation :=
  match l.idx? "match_key", r.idx? "match_key" with
  | some li, some ri =>
    ⟨mergeColsLeft l.cols r.cols ++ mergeColsRight l.cols r.cols,
     joinRows li ri r.rows l.rows⟩
  | _, _ => l

/-- Elementwise `!=` of two pandas Series: NaN compares unequal to
everything, including NaN. -/
def cellNe : Cell → Cell → Bool
  | some a, some b => a != b
  | _, _ => true

/-- `matched_df[matched_df['master_sku'] != matched_df['supplier_sku']]`
(app.py line 199). -/
def mismatchRows (matched : Relation) : Relation :=
  match matched.idx? "master_sku", matched.idx? "supplier_sku" with
  | some i, some j =>
    ⟨matched.cols, matched.rows.filter (fun row => cellNe (row.getD i none) (row.getD j none))⟩
  | _, _ => ⟨matched.cols, []⟩

/-- Result of the Step-4 handler: the session state it leaves behind. -/
structure MatchOutcome where
  master : Relation
  supplier : Relation
  matched : Option Relation
  mismatch : Option Relation
deriving DecidableEq

/-- The in-place normalization of app.py lines 168-173 applied to one
stored frame: the selected match-key column gets `normKey`, then the
selected SKU column gets `normSku`. -/
def normalizeFrame (r : Relation) (mk sk : String) : Relation :=
  (r.mapCol mk (fun v => some (normKey v))).mapCol sk (fun v => some (normSku v))

/-- One side of the merge input (app.py lines 181-188): the normalized
frame with its selectors renamed to the fixed labels and
`rename_duplicate_columns` applied. -/
def renamedFrame (r : Relation) (mk sk mkNew skNew : String) : Relation :=
  ((normalizeFrame r mk sk).renameTwo mk mkNew sk skNew).renameDupCols

/-- The matched frame of app.py lines 190-195. -/
def matchedFrame (master supplier : Relation) (mkM skM mkS skS : String) : Relation :=
  (renamedFrame master mkM skM "match_key" "master_sku").merge
    (renamedFrame supplier mkS skS "match_key" "supplier_sku")

/-- The Step-4 match handler (app.py lines 158-206).  Selector checks abort
before anything is touched; then the key and SKU columns of both stored
relations are normalized in place; then both frames are renamed and merged;
a missing `match_key` after the rename (KeyError in `pd.merge`) or missing
`master_sku`/`supplier_sku` (KeyError in the mismatch detection) aborts via
`st.stop()`; the mismatch frame is stored only when non-empty. -/
def matchStage (master supplier : Relation) (mkM skM mkS skS : String) : MatchOutcome :=
  if ¬ (master.cols.contains mkM ∧ supplier.cols.contains mkS) then
    ⟨master, supplier, none, none⟩
  else if ¬ (master.cols.contains skM ∧ supplier.cols.contains skS) then
    ⟨master, supplier, none, none⟩
  else if ¬ ((renamedFrame master mkM skM "match_key" "master_sku").cols.contains "match_key" ∧
      (renamedFrame supplier mkS skS "match_key" "supplier_sku").cols.contains "match_key") then
    ⟨normalizeFrame master mkM skM, normalizeFrame supplier mkS skS, none, none⟩
  else if ¬ ((matchedFrame master supplier mkM skM mkS skS).cols.contains "master_sku" ∧
      (matchedFrame master supplier mkM skM mkS skS).cols.contains "supplier_sku") then
    ⟨normalizeFrame master mkM skM, normalizeFrame supplier mkS skS,
      some (matchedFrame master supplier mkM skM mkS skS), none⟩
  else
    ⟨normalizeFrame master mkM skM, normalizeFrame supplier mkS skS,
      some (matchedFrame master supplier mkM skM mkS skS),
      if (mismatchRows (matchedFrame master supplier mkM skM mkS skS)).rows.isEmpty then none
      else some (mismatchRows (matchedFrame master supplier mkM skM mkS skS))⟩

/-- `drop_duplicates(subset='match_key')`: keep the first row per key value
(app.py line 211). -/
def dedupRowsAux (j : Nat) (seen : List Cell) : List Row → List Row
  | [] => []
  | row :: rest =>
    if seen.contains (row.getD j none) then dedupRowsAux j seen rest
    else row :: dedupRowsAux j (row.getD j none :: seen) rest

/-- The mismatch frame deduplicated by `match_key`, keeping first. -/
def dropDupByKey (mm : Relation) : Relation :=
  match mm.idx? "match_key" with
  | some j => ⟨mm.cols, dedupRowsAux j [] mm.rows⟩
  | none => mm

/-- `dedup.set_index('match_key')['supplier_sku']` lookup of one key. -/
def lookupSupplierSku (rows : List Row) (jk js : Nat) (key : Cell) : Cell :=
  match rows.find? (fun row => row.getD jk none == key) with
  | some row => row.getD js none
  | none => none

/-- The overwrite handler (app.py lines 209-214): dedup the mismatch frame
by key keeping first, then for every master row whose key is in the
deduplicated key set overwrite its SKU cell with the mapped supplier SKU;
report `len` of the deduplicated frame as the update count. -/
def overwriteStage (master : Relation) (mkM skM : String) (mm : Relation) :
    Relation × Nat :=
  match master.idx? mkM, master.idx? skM, (dropDupByKey mm).idx? "match_key",
      (dropDupByKey mm).idx? "supplier_sku" with
  | some ik, some isk, some jk, some js =>
    (⟨master.cols,
      master.rows.map (fun row =>
        if ((dropDupByKey mm).rows.map (fun drow => drow.getD jk none)).contains
            (row.getD ik none) then
          row.set isk (lookupSupplierSku (dropDupByKey mm).rows jk js (row.getD ik none))
        else row)⟩,
     (dropDupByKey mm).rows.length)
  | _, _, _, _ => (master, (dropDupByKey mm).rows.length)

/-- Dedup a list of cells keeping the first occurrence of each value. -/
def dedupFirstCells (seen : List Cell) : List Cell → List Cell
  | [] => []
  | c :: cs =>
    if seen.contains c then dedupFirstCells seen cs
    else c :: dedupFirstCells (c :: seen) cs

/-- Number of distinct key cells of the mismatch frame (used to state what
the reported update count equals). -/
def distinctKeyCount (mm : Relation) : Nat :=
  match mm.idx? "match_key" with
  | some j => (dedupFirstCells [] (mm.rows.map (fun row => row.getD j none))).length
  | none => mm.rows.length

/-- The unmatched-set calculation (app.py lines 217-219): supplier rows
whose key cell is not among the matched frame's `match_key` cells. -/
def unmatchedStage (supplier : Relation) (mkS : String) (matched : Relation) :
    Relation × Nat :=
  match supplier.idx? mkS, matched.idx? "match_key" with
  | some i, some j =>
    (⟨supplier.cols,
      supplier.rows.filter (fun row =>
        ! (matched.rows.map (fun mrow => mrow.getD j none)).contains (row.getD i none))⟩,
     (supplier.rows.filter (fun row =>
        ! (matched.rows.map (fun mrow => mrow.getD j none)).contains (row.getD i none))).length)
  | _, _ => (supplier, supplier.rows.length)

/-! ### Concrete example relations used by counterexamples and witnesses -/

/-- Example master: raw key " A " and raw SKU " B " (not yet normalized). -/
def exM : Relation := ⟨["k", "s"], [[some " A ", some " B "]]⟩

/-- Example supplier with already-normalized cells. -/
def exS : Relation := ⟨["k", "s"], [[some "a", some "b"]]⟩

/-- One-column master whose single cell " A " is not normalized. -/
def exK : Relation := ⟨["k"], [[some " A "]]⟩

/-- One-column supplier with a normalized cell. -/
def exK2 : Relation := ⟨["k"], [[some "a"]]⟩

/-- Merge-input frame with the key "k" twice (left side of a join). -/
def exJM : Relation :=
  ⟨["match_key", "master_sku"], [[some "k", some "A"], [some "k", some "B"]]⟩

/-- Merge-input frame with the key "k" once (right side of a join). -/
def exJS : Relation := ⟨["match_key", "supplier_sku"], [[some "k", some "C"]]⟩

/-- Merge-input frame with two distinct keys k1, k2. -/
def exNM : Relation :=
  ⟨["match_key", "master_sku"], [[some "k1", some "A"], [some "k2", some "B"]]⟩

/-- Merge-input frame with two distinct keys k2, k3; only k2 is shared. -/
def exNS : Relation :=
  ⟨["match_key", "supplier_sku"], [[some "k2", some "C"], [some "k3", some "D"]]⟩

/-! ## Helper lemmas -/

theorem getD_set_ne {α : Type} {i j : Nat} (h : i ≠ j) (l : List α) (a d : α) :
    (l.set i a).getD j d = l.getD j d := by
  simp [List.getD_eq_getElem?_getD, List.getElem?_set, h]

theorem getD_set_self {α : Type} {i : Nat} (l : List α) (a d : α) (h : i < l.length) :
    (l.set i a).getD i d = a := by
  simp [List.getD_eq_getElem?_getD, List.getElem?_set, h]

theorem idx?_spec {c : String} : ∀ {cols : List String} {i : Nat},
    cols.indexOf? c = some i → i < cols.length ∧ cols.getD i "" = c := by
  intro cols
  induction cols with
  | nil => intro i h; simp [List.indexOf?] at h
  | cons x xs ih =>
    intro i h
    rw [List.indexOf?_cons] at h
    by_cases hx : (x == c) = true
    · rw [if_pos hx] at h
      cases h
      simp [beq_iff_eq] at hx
      simp [hx]
    · rw [if_neg hx] at h
      cases i with
      | zero => simp at h
      | succ i =>
        have := ih (i := i) (by cases h' : xs.indexOf? c <;> rw [h'] at h <;> simp_all)
        exact ⟨Nat.succ_lt_succ this.1, by simpa [List.getD_cons_succ] using this.2⟩

theorem mem_of_getD {α : Type} {l : List α} {i : Nat} {d : α} (h : i < l.length) :
    l.getD i d ∈ l := by
  rw [List.getD_eq_getElem?_getD, List.getElem?_eq_getElem h]
  exact List.getElem_mem h

theorem contains_of_idx? {r : Relation} {c : String} {i : Nat}
    (h : r.idx? c = some i) : r.cols.contains c = true := by
  have hs := idx?_spec h
  have hm : c ∈ r.cols := by
    rw [← hs.2]
    exact mem_of_getD hs.1
  simpa using hm

/-! ## C2 / C3: the duplicate column resolver -/

/-- C2, counterexample: on the label sequence a, a, a_2 the resolver
returns a, a_2, a_2, which still contains a duplicate — the claimed
guarantee that the resulting label sequence contains no duplicates fails
when a synthesized suffixed name collides with an existing label. -/
theorem C2_counterexample : ¬ (rename_duplicate_columns ["a", "a", "a_2"]).Nodup := by
  decide

/-- C3, counterexample: on a, a, a_2 one application of the resolver gives
a, a_2, a_2 and a second application gives a, a_2, a_2_2, so resolving
twice differs from resolving once. -/
theorem C3_counterexample :
    rename_duplicate_columns (rename_duplicate_columns ["a", "a", "a_2"]) ≠
      rename_duplicate_columns ["a", "a", "a_2"] := by
  decide

theorem dupOccurrences_eq_nil {cols : List String} (hn : cols.Nodup) :
    ∀ {seen : List String}, (∀ x ∈ cols, x ∉ seen) → dupOccurrences seen cols = [] := by
  induction cols with
  | nil => intro seen _; rfl
  | cons c cs ih =>
    intro seen hd
    rw [dupOccurrences]
    rw [if_neg (by simpa using hd c (by simp))]
    refine ih hn.of_cons ?_
    intro x hx
    simp only [List.mem_cons, not_or]
    exact ⟨fun he => (List.nodup_cons.mp hn).1 (he ▸ hx), hd x (by simp [hx])⟩

theorem rename_fixed_of_nodup {cols : List String} (h : cols.Nodup) :
    rename_duplicate_columns cols = cols := by
  unfold rename_duplicate_columns dupValues
  rw [dupOccurrences_eq_nil h (by simp)]
  rfl

/-- C3 (amended): duplicate-column resolution is idempotent whenever one
application yields a duplicate-free label sequence (in particular, applying
the resolver to an already-resolved duplicate-free sequence changes
nothing); when the single application leaves a duplicate — possible when a
label collides with a synthesized name — a second application renames
further. -/
theorem C3_resolver_idempotent_when_result_nodup (cols : List String)
    (h : (rename_duplicate_columns cols).Nodup) :
    rename_duplicate_columns (rename_duplicate_columns cols) =
      rename_duplicate_columns cols :=
  rename_fixed_of_nodup h

theorem C3_witness :
    (rename_duplicate_columns ["a", "a"]).Nodup ∧
      rename_duplicate_columns (rename_duplicate_columns ["a", "a"]) =
        rename_duplicate_columns ["a", "a"] :=
  ⟨by decide, C3_resolver_idempotent_when_result_nodup ["a", "a"] (by decide)⟩

/-! ## C4: the reported update count -/

theorem dedupRowsAux_length (j : Nat) :
    ∀ (rows : List Row) (seen : List Cell),
      (dedupRowsAux j seen rows).length =
        (dedupFirstCells seen (rows.map (fun row => row.getD j none))).length := by
  intro rows
  induction rows with
  | nil => intro seen; rfl
  | cons row rest ih =>
    intro seen
    rw [dedupRowsAux, List.map_cons, dedupFirstCells]
    by_cases hc : seen.contains (row.getD j none) = true
    · rw [if_pos hc, if_pos hc, ih]
    · rw [if_neg hc, if_neg hc]
      simp [ih]

theorem overwriteStage_snd (master : Relation) (mkM skM : String) (mm : Relation) :
    (overwriteStage master mkM skM mm).2 = (dropDupByKey mm).rows.length := by
  unfold overwriteStage
  cases h1 : (dropDupByKey mm).idx? "match_key" <;>
    cases h2 : (dropDupByKey mm).idx? "supplier_sku" <;>
      cases h3 : master.idx? mkM <;>
        cases h4 : master.idx? skM <;> simp [h1, h2, h3, h4]

/-- C4 (amended): the reported updated-row count equals the size of the
key-deduplicated mismatch set, i.e. the number of distinct match-key values
of the mismatch frame — counted once per distinct key, not once per
affected master row. -/
theorem C4_count_eq_distinct_mismatch_keys (master : Relation) (mkM skM : String)
    (mm : Relation) :
    (overwriteStage master mkM skM mm).2 = distinctKeyCount mm := by
  rw [overwriteStage_snd]
  unfold dropDupByKey distinctKeyCount
  cases h : mm.idx? "match_key" with
  | none => rfl
  | some j => exact dedupRowsAux_length j mm.rows []

/-- C4, counterexample: two master rows share the mismatched key a; the
overwrite updates both rows (both SKU cells become B) yet reports a count
of 1 — the size of the key-deduplicated mismatch set — not 2 as claimed. -/
theorem C4_counterexample :
    (overwriteStage ⟨["k", "s"], [[some "a", some "A"], [some "a", some "A"]]⟩ "k" "s"
        ⟨["match_key", "master_sku", "supplier_sku"],
          [[some "a", some "A", some "B"], [some "a", some "A", some "B"]]⟩).1.rows =
        [[some "a", some "B"], [some "a", some "B"]] ∧
      (overwriteStage ⟨["k", "s"], [[some "a", some "A"], [some "a", some "A"]]⟩ "k" "s"
        ⟨["match_key", "master_sku", "supplier_sku"],
          [[some "a", some "A", some "B"], [some "a", some "A", some "B"]]⟩).2 = 1 := by
  decide

/-! ## C1: the match stage mutates its inputs -/

theorem mapCol_eq {r : Relation} {c : String} {i : Nat} (h : r.idx? c = some i)
    (f : Cell → Cell) :
    r.mapCol c f = ⟨r.cols, r.rows.map (fun row => row.set i (f (row.getD i none)))⟩ := by
  unfold Relation.mapCol
  rw [h]

theorem matchStage_master_supplier (master supplier : Relation) (mkM skM mkS skS : String)
    (h1 : master.cols.contains mkM = true) (h2 : supplier.cols.contains mkS = true)
    (h3 : master.cols.contains skM = true) (h4 : supplier.cols.contains skS = true) :
    (matchStage master supplier mkM skM mkS skS).master = normalizeFrame master mkM skM ∧
      (matchStage master supplier mkM skM mkS skS).supplier = normalizeFrame supplier mkS skS := by
  unfold matchStage
  rw [if_neg (by simp_all), if_neg (by simp_all)]
  constructor <;> (split <;> [rfl; (split <;> rfl)])

theorem normalizeFrame_eq {r : Relation} {mk sk : String} {ik isk : Nat}
    (hk : r.idx? mk = some ik) (hs : r.idx? sk = some isk) (hne : ik ≠ isk) :
    normalizeFrame r mk sk =
      ⟨r.cols, r.rows.map (fun row =>
        (row.set ik (some (normKey (row.getD ik none)))).set isk
          (some (normSku (row.getD isk none))))⟩ := by
  unfold normalizeFrame
  rw [mapCol_eq hk]
  have hs' : (⟨r.cols, r.rows.map
      (fun row => row.set ik (some (normKey (row.getD ik none))))⟩ : Relation).idx? sk =
      some isk := hs
  rw [mapCol_eq hs']
  refine congrArg (fun rows => Relation.mk r.cols rows) ?_
  rw [List.map_map]
  refine List.map_congr_left ?_
  intro row _
  simp only [Function.comp]
  rw [getD_set_ne hne]

/-- C1 (amended): the match stage does mutate the relations it received:
whenever the four selectors are present (and each side's key and SKU
selectors point at distinct columns), the master and supplier relations it
stores back are the inputs with the selected match-key column rewritten to
its normalized form (null to empty, trim, lowercase) and the selected SKU
column rewritten to its trimmed form, every other cell unchanged; the
inputs are returned unchanged only when those columns were already in
normalized form.  The claimed invariant that every run leaves both input
relations unchanged does not hold. -/
theorem C1_match_stage_rewrites_inputs_in_place
    (master supplier : Relation) (mkM skM mkS skS : String) (ikM isM ikS isS : Nat)
    (hkM : master.idx? mkM = some ikM) (hsM : master.idx? skM = some isM)
    (hkS : supplier.idx? mkS = some ikS) (hsS : supplier.idx? skS = some isS)
    (hM : ikM ≠ isM) (hS : ikS ≠ isS) :
    ((matchStage master supplier mkM skM mkS skS).master.cols = master.cols ∧
      (matchStage master supplier mkM skM mkS skS).master.rows =
        master.rows.map (fun row =>
          (row.set ikM (some (normKey (row.getD ikM none)))).set isM
            (some (normSku (row.getD isM none))))) ∧
    ((matchStage master supplier mkM skM mkS skS).supplier.cols = supplier.cols ∧
      (matchStage master supplier mkM skM mkS skS).supplier.rows =
        supplier.rows.map (fun row =>
          (row.set ikS (some (normKey (row.getD ikS none)))).set isS
            (some (normSku (row.getD isS none))))) := by
  obtain ⟨hMa, hSu⟩ := matchStage_master_supplier master supplier mkM skM mkS skS
    (contains_of_idx? hkM) (contains_of_idx? hkS) (contains_of_idx? hsM) (contains_of_idx? hsS)
  rw [hMa, hSu, normalizeFrame_eq hkM hsM hM, normalizeFrame_eq hkS hsS hS]
  exact ⟨⟨rfl, rfl⟩, ⟨rfl, rfl⟩⟩

/-- C1, counterexample: a successful run of the match stage on a master
whose key cell is " A " (and SKU " B ") hands back a master whose key cell
has become "a" (and SKU "B"): the input relation is not unchanged. -/
theorem C1_counterexample :
    (matchStage exM exS "k" "s" "k" "s").master ≠ exM := by decide

theorem C1_witness :
    exM.idx? "k" = some 0 ∧ exM.idx? "s" = some 1 ∧
    exS.idx? "k" = some 0 ∧ exS.idx? "s" = some 1 ∧
    (((matchStage exM exS "k" "s" "k" "s").master.cols = exM.cols ∧
      (matchStage exM exS "k" "s" "k" "s").master.rows =
        exM.rows.map (fun row =>
          (row.set 0 (some (normKey (row.getD 0 none)))).set 1
            (some (normSku (row.getD 1 none))))) ∧
    ((matchStage exM exS "k" "s" "k" "s").supplier.cols = exS.cols ∧
      (matchStage exM exS "k" "s" "k" "s").supplier.rows =
        exS.rows.map (fun row =>
          (row.set 0 (some (normKey (row.getD 0 none)))).set 1
            (some (normSku (row.getD 1 none)))))) :=
  ⟨by decide, by decide, by decide, by decide,
    C1_match_stage_rewrites_inputs_in_place exM exS "k" "s" "k" "s" 0 1 0 1
      (by decide) (by decide) (by decide) (by decide) (by decide) (by decide)⟩

/-! ## C5: what a failed match operation leaves behind -/

/-- C5 (amended): a missing match-key or SKU selector aborts the match
operation before anything is modified — no matched relation, no partial
join, inputs unchanged.  A failure during the join itself (the merge raises
because no `match_key` column exists after the rename, e.g. when one column
was selected as both match key and SKU) still produces no matched relation
and no mismatch set, but it happens after the in-place normalization, so
the stored master and supplier are the normalized frames, not the untouched
inputs. -/
theorem C5_failure_handling (master supplier : Relation) (mkM skM mkS skS : String) :
    (¬ (master.cols.contains mkM = true ∧ supplier.cols.contains mkS = true) →
      matchStage master supplier mkM skM mkS skS = ⟨master, supplier, none, none⟩) ∧
    ((master.cols.contains mkM = true ∧ supplier.cols.contains mkS = true) →
      ¬ (master.cols.contains skM = true ∧ supplier.cols.contains skS = true) →
      matchStage master supplier mkM skM mkS skS = ⟨master, supplier, none, none⟩) ∧
    ((master.cols.contains mkM = true ∧ supplier.cols.contains mkS = true) →
      (master.cols.contains skM = true ∧ supplier.cols.contains skS = true) →
      ¬ ((renamedFrame master mkM skM "match_key" "master_sku").cols.contains
            "match_key" = true ∧
        (renamedFrame supplier mkS skS "match_key" "supplier_sku").cols.contains
            "match_key" = true) →
      matchStage master supplier mkM skM mkS skS =
        ⟨normalizeFrame master mkM skM, normalizeFrame supplier mkS skS, none, none⟩) := by
  refine ⟨fun h => ?_, fun h1 h2 => ?_, fun h1 h2 h3 => ?_⟩
  · unfold matchStage
    rw [if_pos h]
  · unfold matchStage
    rw [if_neg (not_not_intro h1), if_pos h2]
  · unfold matchStage
    rw [if_neg (not_not_intro h1), if_neg (not_not_intro h2), if_pos h3]

/-- C5, counterexample: selecting the same column "k" as both match key and
SKU makes the merge fail (the rename leaves no match_key column), and
although no matched relation is produced, the previously produced master is
not as it was: its key cell " A " has been normalized to "a". -/
theorem C5_counterexample :
    (matchStage exK exK2 "k" "k" "k" "k").matched = none ∧
      (matchStage exK exK2 "k" "k" "k" "k").master ≠ exK := by decide

theorem C5_witness :
    matchStage exM exS "kk" "s" "k" "s" = ⟨exM, exS, none, none⟩ ∧
    matchStage exM exS "k" "ss" "k" "s" = ⟨exM, exS, none, none⟩ ∧
    matchStage exK exK2 "k" "k" "k" "k" =
      ⟨normalizeFrame exK "k" "k", normalizeFrame exK2 "k" "k", none, none⟩ :=
  ⟨(C5_failure_handling exM exS "kk" "s" "k" "s").1 (by decide),
   (C5_failure_handling exM exS "k" "ss" "k" "s").2.1 (by decide) (by decide),
   (C5_failure_handling exK exK2 "k" "k" "k" "k").2.2 (by decide) (by decide) (by decide)⟩

/-! ## C7: inner join semantics -/

theorem ne_of_last_ne {a b : Char} (h : a ≠ b) (l1 l2 : List Char) :
    l1 ++ [a] ≠ l2 ++ [b] := by
  intro he
  have := (List.append_inj' he (by simp)).2
  exact h (by injection this)

theorem suffix_x_ne_match_key (c : String) : c ++ "_x" ≠ "match_key" := by
  intro h
  have hd : (c ++ "_x").data = "match_key".data := by rw [h]
  rw [String.data_append] at hd
  have h1 : "_x".data = ['_'] ++ ['x'] := by decide
  have h2 : "match_key".data = "match_ke".data ++ ['y'] := by decide
  rw [h1, h2, ← List.append_assoc] at hd
  exact ne_of_last_ne (by decide) _ _ hd

theorem suffix_y_ne_match_key (c : String) : c ++ "_y" ≠ "match_key" := by
  intro h
  have hd : (c ++ "_y").data = "match_key".data := by rw [h]
  rw [String.data_append] at hd
  have h1 : "_y".data = ['_'] ++ ['y'] := by decide
  have h2 : "match_key".data = "match_k".data ++ ['e'] ++ ['y'] := by decide
  rw [h1, h2, ← List.append_assoc] at hd
  have := (List.append_inj' hd (by simp)).1
  have h3 : "match_k".data ++ ['e'] = "match_".data ++ ['k'] ++ ['e'] := by decide
  rw [h3] at this
  exact ne_of_last_ne (by decide) _ _ this

theorem mergeColsLeft_label (lc rc : List String) (c : String) :
    c ∈ mergeColsLeft lc rc →
      c ∈ lc ∨ ∃ d, d ∈ lc ∧ c = d ++ "_x" := by
  intro hm
  unfold mergeColsLeft at hm
  obtain ⟨d, hd, he⟩ := List.mem_map.mp hm
  by_cases hsplit : d ≠ "match_key" ∧ rc.contains d
  · rw [if_pos hsplit] at he
    exact Or.inr ⟨d, hd, he.symm⟩
  · rw [if_neg hsplit] at he
    exact Or.inl (he ▸ hd)

theorem indexOf?_map_pres {f : String → String} {mk : String}
    (hf : ∀ c, f c = mk ↔ c = mk) :
    ∀ cols : List String, (cols.map f).indexOf? mk = cols.indexOf? mk := by
  intro cols
  induction cols with
  | nil => rfl
  | cons c cs ih =>
    rw [List.map_cons, List.indexOf?_cons, List.indexOf?_cons, ih]
    by_cases hc : c = mk
    · rw [if_pos (by simp [(hf c).mpr hc]), if_pos (by simp [hc])]
    · rw [if_neg (by simp; exact fun he => hc ((hf c).mp he)), if_neg (by simp [hc])]

theorem indexOf?_append_left {mk : String} {l2 : List String} :
    ∀ {l1 : List String} {i : Nat},
      l1.indexOf? mk = some i → (l1 ++ l2).indexOf? mk = some i := by
  intro l1
  induction l1 with
  | nil => intro i h; simp [List.indexOf?] at h
  | cons c cs ih =>
    intro i h
    rw [List.indexOf?_cons] at h
    rw [List.cons_append, List.indexOf?_cons]
    by_cases hc : (c == mk) = true
    · rw [if_pos hc] at h; rw [if_pos hc]; exact h
    · rw [if_neg hc] at h
      rw [if_neg hc]
      cases hcs : cs.indexOf? mk with
      | none => rw [hcs] at h; simp at h
      | some i' =>
        rw [hcs] at h
        rw [ih hcs]
        cases h
        rfl

theorem merge_key_idx {l r : Relation} {li : Nat}
    (hl : l.idx? "match_key" = some li) :
    (mergeColsLeft l.cols r.cols ++ mergeColsRight l.cols r.cols).indexOf?
      "match_key" = some li := by
  apply indexOf?_append_left
  unfold mergeColsLeft
  rw [indexOf?_map_pres]
  · exact hl
  · intro c
    constructor
    · intro he
      by_cases hsplit : c ≠ "match_key" ∧ r.cols.contains c
      · rw [if_pos hsplit] at he
        exact absurd he (suffix_x_ne_match_key c)
      · rwa [if_neg hsplit] at he
    · intro he
      rw [he]
      rw [if_neg (fun hc => hc.1 rfl)]

theorem keyEq_some_eq (s : String) (x : Cell) : keyEq (some s) x = (x == some s) := by
  cases x with
  | none => rfl
  | some b => by_cases hb : s = b <;> simp [keyEq, hb, eq_comm]

theorem keyEq_none (x : Cell) : keyEq none x = false := by
  cases x <;> rfl

theorem countP_const (b : Bool) (l : List Row) :
    l.countP (fun _ => b) = if b then l.length else 0 := by
  induction l with
  | nil => cases b <;> simp
  | cons x xs ih => cases b <;> simp [List.countP_cons, ih]

theorem joinRows_countP (li ri : Nat) (rrows : List Row) (k : String) :
    ∀ lrows : List Row, (∀ row ∈ lrows, li < row.length) →
      (joinRows li ri rrows lrows).countP (fun row => row.getD li none == some k) =
        (lrows.countP (fun row => row.getD li none == some k)) *
          (rrows.countP (fun row => row.getD ri none == some k)) := by
  intro lrows
  induction lrows with
  | nil => intro _; simp [joinRows]
  | cons lrow rest ih =>
    intro hlen
    rw [joinRows, List.countP_append, List.countP_map,
      ih (fun row hr => hlen row (by simp [hr])), List.countP_cons]
    have hcomp : ∀ rrow : Row,
        ((fun row => row.getD li none == some k) ∘ fun rrow => lrow ++ rrow.eraseIdx ri) rrow =
          (lrow.getD li none == some k) := by
      intro rrow
      simp only [Function.comp]
      rw [List.getD_append _ _ _ _ (hlen lrow (by simp))]
    rw [List.countP_congr (fun x _ => by rw [hcomp x])]
    by_cases hk : (lrow.getD li none == some k) = true
    · rw [countP_const]
      rw [if_pos hk]
      have hkey : lrow.getD li none = some k := by simpa using hk
      have hfilter : (rrows.filter
          (fun rrow => keyEq (lrow.getD li none) (rrow.getD ri none))).length =
          rrows.countP (fun row => row.getD ri none == some k) := by
        rw [← List.countP_eq_length_filter]
        apply List.countP_congr
        intro x _
        rw [hkey, keyEq_some_eq]
      rw [hfilter, if_pos hk]
      ring
    · rw [countP_const, if_neg hk, if_neg hk]
      simp [Nat.add_mul]

theorem countP_beq_eq_zero {l : List Cell} {a : Cell} (h : a ∉ l) :
    l.countP (fun x => x == a) = 0 := by
  rw [List.countP_eq_zero]
  intro x hx
  simp only [beq_iff_eq]
  exact fun he => h (he ▸ hx)

theorem countP_beq_pos {l : List Cell} {a : Cell} (h : a ∈ l) :
    0 < l.countP (fun x => x == a) := by
  induction l with
  | nil => simp at h
  | cons x xs ih =>
    rw [List.countP_cons]
    rcases List.mem_cons.mp h with he | hm
    · rw [if_pos (by simp [he])]
      omega
    · have := ih hm
      omega

theorem countP_beq_le_one {l : List Cell} (hnd : l.Nodup) (a : Cell) :
    l.countP (fun x => x == a) ≤ 1 := by
  induction l with
  | nil => simp
  | cons x xs ih =>
    rw [List.countP_cons]
    rcases List.nodup_cons.mp hnd with ⟨hx, hxs⟩
    by_cases hxa : (x == a) = true
    · have hxa' : x = a := by simpa using hxa
      rw [if_pos hxa, countP_beq_eq_zero (hxa' ▸ hx)]
    · rw [if_neg hxa]
      have := ih hxs
      omega

theorem filter_keyEq_length {ri : Nat} {rrows : List Row}
    (hnd : (rrows.map (fun row => row.getD ri none)).Nodup) (c : Cell) :
    (rrows.filter (fun rrow => keyEq c (rrow.getD ri none))).length =
      if rrows.any (fun rrow => keyEq c (rrow.getD ri none)) then 1 else 0 := by
  cases c with
  | none =>
    simp [keyEq_none]
  | some s =>
    rw [← List.countP_eq_length_filter]
    rw [List.countP_congr (fun x _ => by rw [keyEq_some_eq])]
    have hc : rrows.countP (fun row => row.getD ri none == some s) =
        (rrows.map (fun row => row.getD ri none)).countP (fun x => x == some s) := by
      rw [List.countP_map]
      rfl
    by_cases hany : rrows.any (fun rrow => keyEq (some s) (rrow.getD ri none)) = true
    · rw [if_pos hany]
      have hmem : (some s) ∈ rrows.map (fun row => row.getD ri none) := by
        obtain ⟨x, hx, hpx⟩ := List.any_eq_true.mp hany
        rw [keyEq_some_eq] at hpx
        exact List.mem_map.mpr ⟨x, hx, by simpa using hpx⟩
      have h1 := countP_beq_pos hmem
      have h2 := countP_beq_le_one hnd (some s)
      rw [hc]
      exact Nat.le_antisymm h2 h1
    · rw [if_neg hany]
      rw [hc]
      apply countP_beq_eq_zero
      intro hmem
      obtain ⟨x, hx, he⟩ := List.mem_map.mp hmem
      exact hany (List.any_eq_true.mpr ⟨x, hx, by rw [keyEq_some_eq]; simpa using he⟩)

theorem joinRows_length {li ri : Nat} {rrows : List Row}
    (hnd : (rrows.map (fun row => row.getD ri none)).Nodup) :
    ∀ lrows : List Row,
      (joinRows li ri rrows lrows).length =
        (lrows.filter (fun lrow =>
          rrows.any (fun rrow => keyEq (lrow.getD li none) (rrow.getD ri none)))).length := by
  intro lrows
  induction lrows with
  | nil => rfl
  | cons lrow rest ih =>
    rw [joinRows, List.length_append, List.length_map, ih, List.filter_cons,
      filter_keyEq_length hnd]
    by_cases hany :
        rrows.any (fun rrow => keyEq (lrow.getD li none) (rrow.getD ri none)) = true
    · rw [if_pos hany, if_pos hany]
      simp [Nat.add_comm]
    · rw [if_neg hany, if_neg hany]
      simp

theorem merge_eq {l r : Relation} {li ri : Nat}
    (hl : l.idx? "match_key" = some li) (hr : r.idx? "match_key" = some ri) :
    l.merge r = ⟨mergeColsLeft l.cols r.cols ++ mergeColsRight l.cols r.cols,
      joinRows li ri r.rows l.rows⟩ := by
  unfold Relation.merge
  rw [hl, hr]

/-- C7: the merge is an inner equi-join on the match_key column emitting
the full cross product of matching rows: for every key value k the matched
frame holds (occurrences of k on the left) times (occurrences of k on the
right) rows with key k — in particular 2 times 1 = 2 rows when a key
appears twice among master rows and once among supplier rows — and when
neither side has duplicate keys the matched frame has exactly one row per
left row whose key occurs on the right, i.e. N rows for N shared keys. -/
theorem C7_inner_join_cross_product (l r : Relation) (li ri : Nat)
    (hl : l.idx? "match_key" = some li) (hr : r.idx? "match_key" = some ri)
    (hwl : ∀ row ∈ l.rows, li < row.length) :
    ((l.merge r).idx? "match_key" = some li) ∧
    (∀ k : String,
      (l.merge r).rows.countP (fun row => row.getD li none == some k) =
        l.rows.countP (fun row => row.getD li none == some k) *
          r.rows.countP (fun row => row.getD ri none == some k)) ∧
    ((l.rows.map (fun row => row.getD li none)).Nodup →
      (r.rows.map (fun row => row.getD ri none)).Nodup →
      (l.merge r).rows.length =
        (l.rows.filter (fun lrow =>
          r.rows.any (fun rrow => keyEq (lrow.getD li none) (rrow.getD ri none)))).length) := by
  rw [merge_eq hl hr]
  refine ⟨merge_key_idx hl, ?_, ?_⟩
  · intro k
    exact joinRows_countP li ri r.rows k l.rows hwl
  · intro _ hndr
    exact joinRows_length hndr l.rows

theorem C7_witness :
    (exJM.merge exJS).rows.countP (fun row => row.getD 0 none == some "k") =
        exJM.rows.countP (fun row => row.getD 0 none == some "k") *
          exJS.rows.countP (fun row => row.getD 0 none == some "k") ∧
    (exJM.merge exJS).rows.countP (fun row => row.getD 0 none == some "k") = 2 ∧
    (exNM.merge exNS).rows.length =
        (exNM.rows.filter (fun lrow =>
          exNS.rows.any (fun rrow => keyEq (lrow.getD 0 none) (rrow.getD 0 none)))).length ∧
    (exNM.merge exNS).rows.length = 1 :=
  ⟨(C7_inner_join_cross_product exJM exJS 0 0 (by decide) (by decide) (by decide)).2.1 "k",
   by decide,
   (C7_inner_join_cross_product exNM exNS 0 0 (by decide) (by decide) (by decide)).2.2
     (by decide) (by decide),
   by decide⟩

/-! ## C6: key normalization makes matching case/whitespace-insensitive -/

/-- C6: the selected match-key values on both sides are normalized by the
identical transform normKey (null to empty string, then trim, then
lowercase) before the join, so whenever two raw keys have the same
normalized form — e.g. they differ only in case or surrounding whitespace —
the corresponding master and supplier rows are matched: the matched frame
is exactly the one joined row carrying the shared normalized key. -/
theorem C6_normalized_keys_match (a b : Cell) (h : normKey a = normKey b) :
    (matchStage ⟨["key", "ms"], [[a, some "1"]]⟩ ⟨["key", "ss"], [[b, some "2"]]⟩
        "key" "ms" "key" "ss").matched =
      some ⟨["match_key", "master_sku", "supplier_sku"],
        [[some (normKey a), some "1", some "2"]]⟩ := by
  have hb : (normKey a == normKey b) = true := by rw [h]; exact beq_self_eq_true _
  simp [matchStage, matchedFrame, renamedFrame, normalizeFrame, Relation.mapCol,
    Relation.idx?, Relation.renameTwo, Relation.renameDupCols, Relation.merge,
    mergeColsLeft, mergeColsRight, joinRows, mismatchRows, keyEq, renameLabel,
    rename_duplicate_columns, dupValues, dupOccurrences, dedupFirst, renameDupAux,
    List.indexOf?, List.findIdx?, hb]
  exact ⟨by decide, by decide⟩

theorem C6_witness :
    normKey (some "ABC-1") = normKey (some " abc-1 ") ∧
      (matchStage ⟨["key", "ms"], [[some "ABC-1", some "1"]]⟩
          ⟨["key", "ss"], [[some " abc-1 ", some "2"]]⟩ "key" "ms" "key" "ss").matched =
        some ⟨["match_key", "master_sku", "supplier_sku"],
          [[some (normKey (some "ABC-1")), some "1", some "2"]]⟩ :=
  ⟨by decide, C6_normalized_keys_match (some "ABC-1") (some " abc-1 ") (by decide)⟩

/-! ## C10: null SKUs in mismatch detection -/

/-- C10: a null SKU is treated as the empty string on either side of the
mismatch comparison: a matched row whose master and supplier SKUs are both
null yields no mismatch (the mismatch frame stays empty, so none is
stored), while a null master SKU against a supplier SKU with non-empty
trimmed value yields a mismatch whose recorded master_sku is the empty
string. -/
theorem C10_null_sku_as_empty (s : String) (hs : normSku (some s) ≠ "") :
    (matchStage ⟨["key", "msku"], [[some "x", none]]⟩
        ⟨["key", "ssku"], [[some "x", some s]]⟩ "key" "msku" "key" "ssku").mismatch =
      some ⟨["match_key", "master_sku", "supplier_sku"],
        [[some "x", some "", some (normSku (some s))]]⟩ ∧
    (matchStage ⟨["key", "msku"], [[some "x", none]]⟩
        ⟨["key", "ssku"], [[some "x", none]]⟩ "key" "msku" "key" "ssku").mismatch =
      none := by
  constructor
  · have hne : cellNe (some "") (some (normSku (some s))) = true := by
      simp [cellNe, bne_iff_ne]
      exact fun he => hs he.symm
    have h1 : normSku none = "" := by decide
    have h2 : normKey (some "x") = "x" := by decide
    simp [matchStage, matchedFrame, renamedFrame, normalizeFrame, Relation.mapCol,
      Relation.idx?, Relation.renameTwo, Relation.renameDupCols, Relation.merge,
      mergeColsLeft, mergeColsRight, joinRows, mismatchRows, keyEq, renameLabel,
      rename_duplicate_columns, dupValues, dupOccurrences, dedupFirst, renameDupAux,
      List.indexOf?, List.findIdx?, hne, h1, h2]
  · decide

theorem C10_witness :
    normSku (some "X") ≠ "" ∧
      (matchStage ⟨["key", "msku"], [[some "x", none]]⟩
          ⟨["key", "ssku"], [[some "x", some "X"]]⟩ "key" "msku" "key" "ssku").mismatch =
        some ⟨["match_key", "master_sku", "supplier_sku"],
          [[some "x", some "", some (normSku (some "X"))]]⟩ :=
  ⟨by decide, (C10_null_sku_as_empty "X" (by decide)).1⟩

/-! ## C9: the unmatched set is computed against normalized keys -/

/-- C9: at the point where the unmatched set is computed the stored
supplier relation is the normalized frame, so the computation selects
exactly the supplier rows whose key cell — which equals the normalized form
of the raw key (null to empty, trim, lowercase, the same transform the join
used) — is absent from the matched frame's match_key cells, and reports
that subset together with its row count; membership is never tested on the
raw unnormalized values. -/
theorem C9_unmatched_on_normalized_keys (supplier m : Relation) (mkS skS : String)
    (ikS isS j : Nat)
    (hkS : supplier.idx? mkS = some ikS) (hsS : supplier.idx? skS = some isS)
    (hne : ikS ≠ isS) (hj : m.idx? "match_key" = some j)
    (hw : ∀ row ∈ supplier.rows, ikS < row.length) :
    ((unmatchedStage (normalizeFrame supplier mkS skS) mkS m).1.cols = supplier.cols) ∧
    ((unmatchedStage (normalizeFrame supplier mkS skS) mkS m).1.rows =
      (supplier.rows.map (fun row =>
        (row.set ikS (some (normKey (row.getD ikS none)))).set isS
          (some (normSku (row.getD isS none))))).filter
        (fun row =>
          ! (m.rows.map (fun mrow => mrow.getD j none)).contains (row.getD ikS none))) ∧
    (∀ row ∈ supplier.rows,
      ((row.set ikS (some (normKey (row.getD ikS none)))).set isS
          (some (normSku (row.getD isS none)))).getD ikS none =
        some (normKey (row.getD ikS none))) ∧
    ((unmatchedStage (normalizeFrame supplier mkS skS) mkS m).2 =
      (unmatchedStage (normalizeFrame supplier mkS skS) mkS m).1.rows.length) := by
  rw [normalizeFrame_eq hkS hsS hne]
  have hidx : (⟨supplier.cols, supplier.rows.map (fun row =>
      (row.set ikS (some (normKey (row.getD ikS none)))).set isS
        (some (normSku (row.getD isS none))))⟩ : Relation).idx? mkS = some ikS := hkS
  unfold unmatchedStage
  rw [hidx, hj]
  refine ⟨rfl, rfl, ?_, rfl⟩
  intro row hr
  rw [getD_set_ne (fun he => hne he.symm), getD_set_self _ _ _ (hw row hr)]

theorem C9_witness :
    ((⟨["key", "sku"], [[some " Z ", some "c"], [some "a", some "d"]]⟩ : Relation).idx?
        "key" = some 0) ∧
    ((unmatchedStage
        (normalizeFrame ⟨["key", "sku"], [[some " Z ", some "c"], [some "a", some "d"]]⟩
          "key" "sku") "key" ⟨["match_key"], [[some "a"]]⟩).1.rows =
      (([[some " Z ", some "c"], [some "a", some "d"]] : List Row).map (fun row =>
        (row.set 0 (some (normKey (row.getD 0 none)))).set 1
          (some (normSku (row.getD 1 none))))).filter
        (fun row =>
          ! (([[some "a"]] : List Row).map (fun mrow => mrow.getD 0 none)).contains
            (row.getD 0 none))) ∧
    ((unmatchedStage
        (normalizeFrame ⟨["key", "sku"], [[some " Z ", some "c"], [some "a", some "d"]]⟩
          "key" "sku") "key" ⟨["match_key"], [[some "a"]]⟩).1.rows =
      [[some "z", some "c"]]) :=
  ⟨by decide,
   (C9_unmatched_on_normalized_keys
      ⟨["key", "sku"], [[some " Z ", some "c"], [some "a", some "d"]]⟩
      ⟨["match_key"], [[some "a"]]⟩ "key" "sku" 0 1 0
      (by decide) (by decide) (by decide) (by decide) (by decide)).2.1,
   by decide⟩

/-! ## C8: reconciliation rewrites exactly the mismatched keys, first-seen wins -/

theorem find?_dedupRowsAux (j : Nat) (key : Cell) :
    ∀ (rows : List Row) (seen : List Cell), key ∉ seen →
      (dedupRowsAux j seen rows).find? (fun row => row.getD j none == key) =
        rows.find? (fun row => row.getD j none == key) := by
  intro rows
  induction rows with
  | nil => intro seen _; rfl
  | cons row rest ih =>
    intro seen hk
    rw [dedupRowsAux]
    by_cases hc : seen.contains (row.getD j none) = true
    · rw [if_pos hc]
      have hne : ¬ (row.getD j none == key) = true := by
        simp only [beq_iff_eq]
        intro he
        exact hk (he ▸ (by simpa using hc))
      rw [@List.find?_cons_of_neg _ (fun r => List.getD r j none == key) row rest hne,
        ih seen hk]
    · rw [if_neg hc]
      by_cases hp : (row.getD j none == key) = true
      · rw [@List.find?_cons_of_pos _ (fun r => List.getD r j none == key) row
          (dedupRowsAux j (row.getD j none :: seen) rest) hp,
          @List.find?_cons_of_pos _ (fun r => List.getD r j none == key) row rest hp]
      · rw [@List.find?_cons_of_neg _ (fun r => List.getD r j none == key) row
          (dedupRowsAux j (row.getD j none :: seen) rest) hp,
          @List.find?_cons_of_neg _ (fun r => List.getD r j none == key) row rest hp]
        apply ih
        intro hkm
        rcases List.mem_cons.mp hkm with he | hs
        · exact hp (by simp [he])
        · exact hk hs

theorem contains_dedupRowsAux_keys (j : Nat) (key : Cell) :
    ∀ (rows : List Row) (seen : List Cell), seen.contains key = false →
      ((dedupRowsAux j seen rows).map (fun row => row.getD j none)).contains key =
        (rows.map (fun row => row.getD j none)).contains key := by
  intro rows
  induction rows with
  | nil => intro seen _; rfl
  | cons row rest ih =>
    intro seen hk
    rw [dedupRowsAux]
    by_cases hc : seen.contains (row.getD j none) = true
    · rw [if_pos hc, List.map_cons, List.contains_cons, ih seen hk]
      have hne : (key == row.getD j none) = false := by
        apply beq_false_of_ne
        intro he
        rw [he] at hk
        rw [hk] at hc
        cases hc
      rw [hne, Bool.false_or]
    · rw [if_neg hc, List.map_cons, List.map_cons, List.contains_cons, List.contains_cons]
      by_cases hkr : (key == row.getD j none) = true
      · rw [hkr, Bool.true_or, Bool.true_or]
      · rw [Bool.eq_false_iff.mpr hkr, Bool.false_or, Bool.false_or]
        apply ih
        rw [List.contains_cons, Bool.eq_false_iff.mpr hkr, Bool.false_or, hk]

theorem lookup_dedupRowsAux (jk js : Nat) (mmrows : List Row) (key : Cell) :
    lookupSupplierSku (dedupRowsAux jk [] mmrows) jk js key =
      lookupSupplierSku mmrows jk js key := by
  unfold lookupSupplierSku
  rw [find?_dedupRowsAux jk key mmrows [] (by simp)]

/-- C8: reconciliation first dedups the mismatch frame by key keeping the
first occurrence, then returns a master with the same columns and row
count in which every master row whose key cell occurs among the mismatch
keys has its SKU cell overwritten with the supplier SKU of the first
mismatch row carrying that key, every other row — and every non-SKU cell
of every row — left untouched. -/
theorem C8_reconciliation_first_seen_wins (master mm : Relation) (mkM skM : String)
    (ik isk jk js : Nat)
    (hik : master.idx? mkM = some ik) (hisk : master.idx? skM = some isk)
    (hjk : mm.idx? "match_key" = some jk) (hjs : mm.idx? "supplier_sku" = some js) :
    ((overwriteStage master mkM skM mm).1.cols = master.cols) ∧
    ((overwriteStage master mkM skM mm).1.rows.length = master.rows.length) ∧
    ((overwriteStage master mkM skM mm).1.rows =
      master.rows.map (fun row =>
        if (mm.rows.map (fun mrow => mrow.getD jk none)).contains (row.getD ik none) then
          row.set isk (lookupSupplierSku mm.rows jk js (row.getD ik none))
        else row)) ∧
    (∀ n : Nat, ∀ jcol : Nat, jcol ≠ isk →
      ((overwriteStage master mkM skM mm).1.rows.getD n []).getD jcol none =
        (master.rows.getD n []).getD jcol none) := by
  have hded : dropDupByKey mm = ⟨mm.cols, dedupRowsAux jk [] mm.rows⟩ := by
    unfold dropDupByKey
    rw [hjk]
  have hdk : (dropDupByKey mm).idx? "match_key" = some jk := by rw [hded]; exact hjk
  have hds : (dropDupByKey mm).idx? "supplier_sku" = some js := by rw [hded]; exact hjs
  have hrows : (overwriteStage master mkM skM mm).1.rows =
      master.rows.map (fun row =>
        if (mm.rows.map (fun mrow => mrow.getD jk none)).contains (row.getD ik none) then
          row.set isk (lookupSupplierSku mm.rows jk js (row.getD ik none))
        else row) := by
    unfold overwriteStage
    rw [hik, hisk, hdk, hds, hded]
    refine List.map_congr_left ?_
    intro row _
    rw [contains_dedupRowsAux_keys jk (row.getD ik none) mm.rows [] rfl,
      lookup_dedupRowsAux jk js mm.rows (row.getD ik none)]
  have hcols : (overwriteStage master mkM skM mm).1.cols = master.cols := by
    unfold overwriteStage
    rw [hik, hisk, hdk]
    cases h : (dropDupByKey mm).idx? "supplier_sku" <;> rfl
  refine ⟨hcols, by rw [hrows, List.length_map], hrows, ?_⟩
  intro n jcol hj
  rw [hrows]
  by_cases hn : n < master.rows.length
  · have hmap : (master.rows.map (fun row =>
        if (mm.rows.map (fun mrow => mrow.getD jk none)).contains (row.getD ik none) then
          row.set isk (lookupSupplierSku mm.rows jk js (row.getD ik none))
        else row)).getD n [] =
        (fun row =>
          if (mm.rows.map (fun mrow => mrow.getD jk none)).contains (row.getD ik none) then
            row.set isk (lookupSupplierSku mm.rows jk js (row.getD ik none))
          else row) (master.rows.getD n []) := by
      rw [List.getD_eq_getElem?_getD, List.getElem?_map,
        List.getElem?_eq_getElem hn]
      rw [List.getD_eq_getElem?_getD, List.getElem?_eq_getElem hn]
      rfl
    rw [hmap]
    by_cases hmask : ((mm.rows.map (fun mrow => mrow.getD jk none)).contains
        ((master.rows.getD n []).getD ik none)) = true
    · simp only [if_pos hmask]
      exact getD_set_ne (fun he => hj he.symm) _ _ _
    · simp only [if_neg hmask]
  · have h1 : (master.rows.map (fun row =>
        if (mm.rows.map (fun mrow => mrow.getD jk none)).contains (row.getD ik none) then
          row.set isk (lookupSupplierSku mm.rows jk js (row.getD ik none))
        else row)).getD n [] = [] := by
      rw [List.getD_eq_getElem?_getD, List.getElem?_eq_none (by simpa using hn)]
      rfl
    have h2 : master.rows.getD n [] = [] := by
      rw [List.getD_eq_getElem?_getD, List.getElem?_eq_none (by omega)]
      rfl
    rw [h1, h2]

theorem C8_witness :
    ((⟨["k", "s"], [[some "a", some "A"], [some "b", some "X"]]⟩ : Relation).idx? "k" =
        some 0) ∧
    ((overwriteStage ⟨["k", "s"], [[some "a", some "A"], [some "b", some "X"]]⟩ "k" "s"
        ⟨["match_key", "master_sku", "supplier_sku"],
          [[some "a", some "A", some "B"], [some "a", some "A", some "C"]]⟩).1.rows =
      ([[some "a", some "A"], [some "b", some "X"]] : List Row).map (fun row =>
        if (([[some "a", some "A", some "B"], [some "a", some "A", some "C"]] :
            List Row).map (fun mrow => mrow.getD 0 none)).contains (row.getD 0 none) then
          row.set 1 (lookupSupplierSku
            [[some "a", some "A", some "B"], [some "a", some "A", some "C"]] 0 2
            (row.getD 0 none))
        else row)) ∧
    ((overwriteStage ⟨["k", "s"], [[some "a", some "A"], [some "b", some "X"]]⟩ "k" "s"
        ⟨["match_key", "master_sku", "supplier_sku"],
          [[some "a", some "A", some "B"], [some "a", some "A", some "C"]]⟩).1.rows =
      [[some "a", some "B"], [some "b", some "X"]]) :=
  ⟨by decide,
   (C8_reconciliation_first_seen_wins
      ⟨["k", "s"], [[some "a", some "A"], [some "b", some "X"]]⟩
      ⟨["match_key", "master_sku", "supplier_sku"],
        [[some "a", some "A", some "B"], [some "a", some "A", some "C"]]⟩
      "k" "s" 0 1 0 2 (by decide) (by decide) (by decide) (by decide)).2.2.1,
   by decide⟩

/-! ## C2: what the resolver computes, and when its output is duplicate-free

The development below needs that the synthesized names `d ++ "_" ++
Nat.repr k` behave like injective tags, which requires injectivity of
`Nat.repr` and the fact that its characters are decimal digits. -/

theorem toDigitsCore_acc (fuel : Nat) :
    ∀ (n : Nat) (ds : List Char),
      Nat.toDigitsCore 10 fuel n ds = Nat.toDigitsCore 10 fuel n [] ++ ds := by
  induction fuel with
  | zero => intro n ds; rfl
  | succ fuel ih =>
    intro n ds
    simp only [Nat.toDigitsCore]
    by_cases h : n / 10 = 0
    · rw [if_pos h, if_pos h]
      rfl
    · rw [if_neg h, if_neg h, ih (n / 10) [Nat.digitChar (n % 10)],
        ih (n / 10) (Nat.digitChar (n % 10) :: ds), List.append_assoc]
      rfl

theorem toDigitsCore_fuel :
    ∀ (n fuel fuel' : Nat), n < fuel → n < fuel' →
      Nat.toDigitsCore 10 fuel n [] = Nat.toDigitsCore 10 fuel' n [] := by
  intro n
  induction n using Nat.strong_induction_on with
  | _ n ih =>
    intro fuel fuel' hf hf'
    cases fuel with
    | zero => omega
    | succ f =>
      cases fuel' with
      | zero => omega
      | succ f' =>
        simp only [Nat.toDigitsCore]
        by_cases h : n / 10 = 0
        · rw [if_pos h, if_pos h]
        · rw [if_neg h, if_neg h,
            toDigitsCore_acc f (n / 10) [Nat.digitChar (n % 10)],
            toDigitsCore_acc f' (n / 10) [Nat.digitChar (n % 10)]]
          have hlt : n / 10 < n := Nat.div_lt_self (by omega) (by omega)
          rw [ih (n / 10) hlt f f' (by omega) (by omega)]

theorem toDigits_unfold (n : Nat) :
    Nat.toDigits 10 n =
      if n < 10 then [Nat.digitChar n]
      else Nat.toDigits 10 (n / 10) ++ [Nat.digitChar (n % 10)] := by
  have hbase : Nat.toDigits 10 n = Nat.toDigitsCore 10 (n + 1) n [] := rfl
  by_cases h : n / 10 = 0
  · have hn : n < 10 := by omega
    rw [if_pos hn, hbase]
    simp only [Nat.toDigitsCore]
    rw [if_pos h, Nat.mod_eq_of_lt hn]
  · have hn : ¬ n < 10 := by
      intro hlt
      exact h (Nat.div_eq_of_lt hlt)
    rw [if_neg hn, hbase]
    simp only [Nat.toDigitsCore]
    rw [if_neg h, toDigitsCore_acc n (n / 10) [Nat.digitChar (n % 10)]]
    have hlt : n / 10 < n := Nat.div_lt_self (by omega) (by omega)
    rw [toDigitsCore_fuel (n / 10) n (n / 10 + 1) (by omega) (by omega)]
    rfl

theorem digitChar_toNat (m : Nat) (h : m < 10) : (Nat.digitChar m).toNat - 48 = m := by
  interval_cases m <;> decide

theorem digitChar_ne_underscore (m : Nat) (h : m < 10) : Nat.digitChar m ≠ '_' := by
  interval_cases m <;> decide

theorem toDigits_no_underscore :
    ∀ n : Nat, '_' ∉ Nat.toDigits 10 n := by
  intro n
  induction n using Nat.strong_induction_on with
  | _ n ih =>
    rw [toDigits_unfold]
    by_cases h : n < 10
    · rw [if_pos h]
      intro hm
      rcases List.mem_singleton.mp hm with he
      exact digitChar_ne_underscore n h he.symm
    · rw [if_neg h]
      intro hm
      rcases List.mem_append.mp hm with hl | hr
      · exact ih (n / 10) (Nat.div_lt_self (by omega) (by omega)) hl
      · rcases List.mem_singleton.mp hr with he
        exact digitChar_ne_underscore (n % 10) (Nat.mod_lt _ (by omega)) he.symm

theorem decode_toDigits : ∀ n : Nat, decodeDigits (Nat.toDigits 10 n) = n := by
  intro n
  induction n using Nat.strong_induction_on with
  | _ n ih =>
    rw [toDigits_unfold]
    by_cases h : n < 10
    · rw [if_pos h]
      show 0 * 10 + ((Nat.digitChar n).toNat - 48) = n
      rw [digitChar_toNat n h]
      omega
    · rw [if_neg h]
      unfold decodeDigits
      rw [List.foldl_append]
      have hdiv : List.foldl (fun a c => a * 10 + (c.toNat - 48)) 0
          (Nat.toDigits 10 (n / 10)) = n / 10 :=
        ih (n / 10) (Nat.div_lt_self (by omega) (by omega))
      rw [hdiv]
      show n / 10 * 10 + ((Nat.digitChar (n % 10)).toNat - 48) = n
      rw [digitChar_toNat (n % 10) (Nat.mod_lt _ (by omega))]
      omega

theorem repr_data (n : Nat) : (Nat.repr n).data = Nat.toDigits 10 n := rfl

theorem repr_injective {m n : Nat} (h : Nat.repr m = Nat.repr n) : m = n := by
  have hd : Nat.toDigits 10 m = Nat.toDigits 10 n := by
    rw [← repr_data, ← repr_data, h]
  rw [← decode_toDigits m, ← decode_toDigits n, hd]

theorem repr_no_underscore (n : Nat) : '_' ∉ (Nat.repr n).data := by
  rw [repr_data]
  exact toDigits_no_underscore n

theorem append_underscore_inj :
    ∀ (a b x y : List Char), '_' ∉ a → '_' ∉ b →
      a ++ '_' :: x = b ++ '_' :: y → a = b ∧ x = y := by
  intro a
  induction a with
  | nil =>
    intro b x y _ hb he
    cases b with
    | nil => simpa using he
    | cons c bs =>
      rw [List.nil_append, List.cons_append] at he
      have : c = '_' := (List.cons.injEq _ _ _ _ ▸ he).1.symm
      exact absurd (this ▸ List.mem_cons_self c bs) hb
  | cons c as ih =>
    intro b x y ha hb he
    cases b with
    | nil =>
      rw [List.cons_append, List.nil_append] at he
      have : c = '_' := (List.cons.injEq _ _ _ _ ▸ he).1
      exact absurd (this ▸ List.mem_cons_self c as) ha
    | cons d bs =>
      rw [List.cons_append, List.cons_append] at he
      have h1 := (List.cons.injEq _ _ _ _ ▸ he).1
      have h2 := (List.cons.injEq _ _ _ _ ▸ he).2
      have ha' : '_' ∉ as := fun hm => ha (List.mem_cons_of_mem c hm)
      have hb' : '_' ∉ bs := fun hm => hb (List.mem_cons_of_mem d hm)
      obtain ⟨hab, hxy⟩ := ih bs x y ha' hb' h2
      exact ⟨by rw [h1, hab], hxy⟩

theorem enc_data (c : String) (k : Nat) :
    (c ++ "_" ++ Nat.repr k).data = c.data ++ '_' :: (Nat.repr k).data := by
  rw [String.data_append, String.data_append, List.append_assoc]
  rfl

theorem enc_inj {c c' : String} {k k' : Nat}
    (hc : '_' ∉ c.data) (hc' : '_' ∉ c'.data)
    (h : c ++ "_" ++ Nat.repr k = c' ++ "_" ++ Nat.repr k') : c = c' ∧ k = k' := by
  have hd : (c ++ "_" ++ Nat.repr k).data = (c' ++ "_" ++ Nat.repr k').data := by rw [h]
  rw [enc_data, enc_data] at hd
  obtain ⟨h1, h2⟩ := append_underscore_inj c.data c'.data _ _ hc hc' hd
  refine ⟨String.ext h1, repr_injective (String.ext h2)⟩

theorem enc_ne_plain {v : String} (hv : '_' ∉ v.data) (c : String) (k : Nat) :
    c ++ "_" ++ Nat.repr k ≠ v := by
  intro he
  apply hv
  rw [← he, enc_data]
  exact List.mem_append.mpr (Or.inr (List.mem_cons_self _ _))

theorem resolvedUpTo_nil_left : ∀ (rest pre : List String),
    resolvedUpTo [] pre rest = rest := by
  intro rest
  induction rest with
  | nil => intro pre; rfl
  | cons c cs ih =>
    intro pre
    rw [resolvedUpTo, if_neg (by simp), ih]

theorem mem_dedupFirst : ∀ (l seen : List String) (x : String),
    x ∈ dedupFirst seen l ↔ (x ∈ l ∧ x ∉ seen) := by
  intro l
  induction l with
  | nil => intro seen x; simp [dedupFirst]
  | cons c cs ih =>
    intro seen x
    rw [dedupFirst]
    by_cases hc : seen.contains c = true
    · have hcm : c ∈ seen := by simpa using hc
      rw [if_pos hc, ih]
      constructor
      · rintro ⟨h1, h2⟩
        exact ⟨List.mem_cons_of_mem c h1, h2⟩
      · rintro ⟨hx, hs⟩
        rcases List.mem_cons.mp hx with he | hm
        · exact absurd (he ▸ hcm) hs
        · exact ⟨hm, hs⟩
    · have hcm : c ∉ seen := by simpa using hc
      rw [if_neg hc]
      constructor
      · intro hx
        rcases List.mem_cons.mp hx with he | hm
        · exact ⟨he ▸ List.mem_cons_self c cs, he ▸ hcm⟩
        · rcases (ih (c :: seen) x).mp hm with ⟨h1, h2⟩
          exact ⟨List.mem_cons_of_mem c h1, fun hs => h2 (List.mem_cons_of_mem c hs)⟩
      · rintro ⟨hx, hs⟩
        by_cases hxc : x = c
        · exact hxc ▸ List.mem_cons_self c _
        · rcases List.mem_cons.mp hx with he | hm
          · exact absurd he hxc
          · refine List.mem_cons_of_mem c ((ih (c :: seen) x).mpr ⟨hm, ?_⟩)
            intro hcs
            rcases List.mem_cons.mp hcs with h1 | h2
            · exact hxc h1
            · exact hs h2

theorem nodup_dedupFirst : ∀ (l seen : List String), (dedupFirst seen l).Nodup := by
  intro l
  induction l with
  | nil => intro seen; exact List.nodup_nil
  | cons c cs ih =>
    intro seen
    rw [dedupFirst]
    by_cases hc : seen.contains c = true
    · rw [if_pos hc]
      exact ih seen
    · rw [if_neg hc]
      refine List.nodup_cons.mpr ⟨?_, ih (c :: seen)⟩
      intro hm
      rcases (mem_dedupFirst cs (c :: seen) c).mp hm with ⟨_, hns⟩
      exact hns (List.mem_cons_self c seen)

theorem mem_dupOccurrences : ∀ (l seen : List String) (x : String),
    x ∈ dupOccurrences seen l ↔
      (2 ≤ l.count x ∨ (x ∈ seen ∧ 1 ≤ l.count x)) := by
  intro l
  induction l with
  | nil => intro seen x; simp [dupOccurrences]
  | cons c cs ih =>
    intro seen x
    rw [dupOccurrences]
    by_cases hxc : x = c
    · subst hxc
      have hcx : (x :: cs).count x = cs.count x + 1 := List.count_cons_self x cs
      by_cases hc : seen.contains x = true
      · have hcm : x ∈ seen := by simpa using hc
        rw [if_pos hc]
        constructor
        · intro _
          right
          exact ⟨hcm, by omega⟩
        · intro _
          exact List.mem_cons_self _ _
      · have hcm : x ∉ seen := by simpa using hc
        rw [if_neg hc, ih (x :: seen) x, hcx]
        constructor
        · rintro (h2 | ⟨_, h1⟩)
          · left; omega
          · left; omega
        · rintro (h2 | ⟨hs, _⟩)
          · right
            exact ⟨List.mem_cons_self _ _, by omega⟩
          · exact absurd hs hcm
    · have hcx : (c :: cs).count x = cs.count x := List.count_cons_of_ne hxc cs
      have hmem : x ∈ (c :: seen) ↔ x ∈ seen := by
        simp [List.mem_cons, hxc]
      by_cases hc : seen.contains c = true
      · rw [if_pos hc, List.mem_cons, ih (c :: seen) x, hcx, hmem]
        constructor
        · rintro (he | h)
          · exact absurd he hxc
          · exact h
        · intro h
          exact Or.inr h
      · rw [if_neg hc, ih (c :: seen) x, hcx, hmem]

theorem mem_dupValues {cols : List String} {x : String} :
    x ∈ dupValues cols ↔ 2 ≤ cols.count x := by
  unfold dupValues
  rw [mem_dedupFirst, mem_dupOccurrences]
  simp

theorem nodup_dupValues (cols : List String) : (dupValues cols).Nodup :=
  nodup_dedupFirst _ []

theorem renameDupAux_resolvedUpTo {d : String} {P : List String}
    (hud : '_' ∉ d.data) (hdP : d ∉ P) :
    ∀ (rest pre : List String), (∀ s ∈ rest, '_' ∉ s.data) →
      renameDupAux d (resolvedUpTo P pre rest)
        (!(pre.count d == 0)) (if pre.count d = 0 then 2 else pre.count d + 1) =
      resolvedUpTo (d :: P) pre rest := by
  intro rest
  induction rest with
  | nil => intro pre _; rfl
  | cons c rest' ih =>
    intro pre hu
    have hu' : ∀ s ∈ rest', '_' ∉ s.data := fun s hs => hu s (List.mem_cons_of_mem c hs)
    rw [resolvedUpTo, resolvedUpTo]
    by_cases hcd : c = d
    · subst hcd
      have hPc : ¬ (P.contains c = true) := fun h => hdP (by simpa using h)
      rw [if_neg hPc, if_pos (show ((c :: P).contains c = true) by simp)]
      rw [renameDupAux, if_pos rfl]
      by_cases h0 : pre.count c = 0
      · have hseen : (!(pre.count c == 0)) = false := by simp [h0]
        rw [hseen, if_pos h0, if_pos h0, if_neg (by simp)]
        congr 1
        have hcnt : (pre ++ [c]).count c = 1 := by
          rw [List.count_append, List.count_cons_self, List.count_nil, h0]
        have hstep := ih (pre ++ [c]) hu'
        rw [hcnt] at hstep
        simpa using hstep
      · have hseen : (!(pre.count c == 0)) = true := by
          simp only [Bool.not_eq_eq_eq_not, Bool.not_true, beq_eq_false_iff_ne, ne_eq]
          exact h0
        rw [hseen, if_neg h0, if_neg h0, if_pos rfl]
        congr 1
        have hcnt : (pre ++ [c]).count c = pre.count c + 1 := by
          rw [List.count_append, List.count_cons_self, List.count_nil]
        have hstep := ih (pre ++ [c]) hu'
        rw [hcnt] at hstep
        have hs1 : (!(pre.count c + 1 == 0)) = true := by simp
        rw [hs1, if_neg (by omega)] at hstep
        exact hstep
    · have hhd : (if P.contains c = true then
          (if pre.count c = 0 then c
           else c ++ "_" ++ Nat.repr (pre.count c + 1)) else c) ≠ d := by
        by_cases hPc : P.contains c = true
        · rw [if_pos hPc]
          by_cases h0 : pre.count c = 0
          · rw [if_pos h0]; exact hcd
          · rw [if_neg h0]; exact enc_ne_plain hud c (pre.count c + 1)
        · rw [if_neg hPc]; exact hcd
      rw [renameDupAux, if_neg hhd]
      have hcont : ((d :: P).contains c) = P.contains c := by
        rw [List.contains_cons, beq_false_of_ne hcd, Bool.false_or]
      rw [hcont]
      congr 1
      have hcnt : (pre ++ [c]).count d = pre.count d := by
        rw [List.count_append, List.count_cons_of_ne (fun he => hcd he.symm), List.count_nil]
        omega
      have hstep := ih (pre ++ [c]) hu'
      rw [hcnt] at hstep
      exact hstep

theorem foldl_renameDup_resolvedUpTo :
    ∀ (D P cols : List String),
      (∀ s ∈ cols, '_' ∉ s.data) → (∀ x ∈ D, '_' ∉ x.data) →
      (∀ x ∈ D, x ∉ P) → D.Nodup →
      D.foldl (fun cs d => renameDupAux d cs false 2) (resolvedUpTo P [] cols) =
        resolvedUpTo (D.reverse ++ P) [] cols := by
  intro D
  induction D with
  | nil =>
    intro P cols _ _ _ _
    simp
  | cons d D' ih =>
    intro P cols hu huD hDP hnd
    rw [List.foldl_cons]
    have hstep : renameDupAux d (resolvedUpTo P [] cols) false 2 =
        resolvedUpTo (d :: P) [] cols := by
      have h := renameDupAux_resolvedUpTo (huD d (List.mem_cons_self d D'))
        (hDP d (List.mem_cons_self d D')) cols [] hu
      simpa using h
    rw [hstep]
    have hrec := ih (d :: P) cols hu (fun x hx => huD x (List.mem_cons_of_mem d hx))
      (fun x hx => by
        rcases List.nodup_cons.mp hnd with ⟨hd, _⟩
        simp only [List.mem_cons, not_or]
        exact ⟨fun he => hd (he ▸ hx), hDP x (List.mem_cons_of_mem d hx)⟩)
      (List.nodup_cons.mp hnd).2
    rw [hrec, List.reverse_cons, List.append_assoc]
    rfl

theorem rename_eq_resolvedUpTo (cols : List String)
    (hu : ∀ s ∈ cols, '_' ∉ s.data) :
    rename_duplicate_columns cols = resolvedUpTo (dupValues cols).reverse [] cols := by
  unfold rename_duplicate_columns
  nth_rewrite 1 [show cols = resolvedUpTo [] [] cols from
    (resolvedUpTo_nil_left cols []).symm]
  rw [foldl_renameDup_resolvedUpTo (dupValues cols) [] cols hu
    (fun x hx => hu x (by
      have h2 := mem_dupValues.mp hx
      have : 0 < cols.count x := by omega
      exact List.count_pos_iff.mp this))
    (fun x _ => List.not_mem_nil x) (nodup_dupValues cols)]
  rw [List.append_nil]

theorem resolvedUpTo_eq_specResolveGo (Q : List String) :
    ∀ (rest pre : List String),
      (∀ c ∈ rest, 1 < pre.count c + rest.count c → c ∈ Q) →
      resolvedUpTo Q pre rest = specResolveGo pre rest := by
  intro rest
  induction rest with
  | nil => intro pre _; rfl
  | cons c rest' ih =>
    intro pre h
    rw [resolvedUpTo, specResolveGo]
    congr 1
    · by_cases h0 : pre.count c = 0
      · rw [if_pos h0]
        by_cases hQ : Q.contains c = true
        · rw [if_pos hQ]
        · rw [if_neg hQ]
      · have hQ : c ∈ Q := by
          apply h c (List.mem_cons_self c rest')
          have h1 : 1 ≤ pre.count c := Nat.pos_of_ne_zero h0
          have h2 : 1 ≤ (c :: rest').count c := by
            rw [List.count_cons_self]
            omega
          omega
        rw [if_pos (by simpa using hQ), if_neg h0]
    · apply ih
      intro x hx hcnt
      apply h x (List.mem_cons_of_mem c hx)
      have key : pre.count x + (c :: rest').count x =
          (pre ++ [c]).count x + rest'.count x := by
        rw [List.count_append, List.count_cons, List.count_cons, List.count_nil]
        omega
      omega

theorem rename_eq_specResolve (cols : List String)
    (hu : ∀ s ∈ cols, '_' ∉ s.data) :
    rename_duplicate_columns cols = specResolve cols := by
  rw [rename_eq_resolvedUpTo cols hu]
  unfold specResolve
  apply resolvedUpTo_eq_specResolveGo
  intro c hc hcnt
  rw [List.mem_reverse, mem_dupValues]
  simp only [List.count_nil] at hcnt
  omega

theorem specResolveGo_mem :
    ∀ (rest pre : List String) (x : String), x ∈ specResolveGo pre rest →
      ∃ c k, c ∈ rest ∧ pre.count c ≤ k ∧
        x = (if k = 0 then c else c ++ "_" ++ Nat.repr (k + 1)) := by
  intro rest
  induction rest with
  | nil =>
    intro pre x hx
    simp [specResolveGo] at hx
  | cons c rest' ih =>
    intro pre x hx
    rw [specResolveGo] at hx
    rcases List.mem_cons.mp hx with he | hm
    · refine ⟨c, pre.count c, List.mem_cons_self _ _, le_refl _, ?_⟩
      exact he
    · obtain ⟨c', k', hc', hk', he'⟩ := ih (pre ++ [c]) x hm
      refine ⟨c', k', List.mem_cons_of_mem c hc', ?_, he'⟩
      have : pre.count c' ≤ (pre ++ [c]).count c' := by
        rw [List.count_append]
        omega
      omega

theorem specResolveGo_nodup :
    ∀ (rest pre : List String), (∀ s ∈ rest, '_' ∉ s.data) →
      (specResolveGo pre rest).Nodup := by
  intro rest
  induction rest with
  | nil => intro pre _; exact List.nodup_nil
  | cons c rest' ih =>
    intro pre hu
    rw [specResolveGo]
    refine List.nodup_cons.mpr
      ⟨?_, ih (pre ++ [c]) (fun s hs => hu s (List.mem_cons_of_mem c hs))⟩
    intro hmem
    obtain ⟨c', k', hc', hk', he'⟩ := specResolveGo_mem rest' (pre ++ [c]) _ hmem
    have huc : '_' ∉ c.data := hu c (List.mem_cons_self c rest')
    have huc' : '_' ∉ c'.data := hu c' (List.mem_cons_of_mem c hc')
    by_cases h0 : pre.count c = 0
    · rw [if_pos h0] at he'
      by_cases hk0 : k' = 0
      · rw [if_pos hk0] at he'
        subst he'
        have : (pre ++ [c]).count c = pre.count c + 1 := by
          rw [List.count_append, List.count_cons_self, List.count_nil]
        omega
      · rw [if_neg hk0] at he'
        exact enc_ne_plain huc c' (k' + 1) he'.symm
    · rw [if_neg h0] at he'
      by_cases hk0 : k' = 0
      · rw [if_pos hk0] at he'
        exact enc_ne_plain huc' c (pre.count c + 1) he'
      · rw [if_neg hk0] at he'
        obtain ⟨hcc, hkk⟩ := enc_inj huc huc' he'
        subst hcc
        have : (pre ++ [c]).count c = pre.count c + 1 := by
          rw [List.count_append, List.count_cons_self, List.count_nil]
        omega

/-- C2 (amended): for every sequence of labels that contain no underscore
character, the Duplicate Column Resolver computes exactly the specified
one-pass resolution — the first occurrence of each duplicated label is
unchanged and the k-th occurrence becomes label_k for k at least 2, in
encounter order — and the resulting label sequence contains no duplicates.
(When a label can collide with a synthesized suffixed name, e.g. the
sequence a, a, a_2, the no-duplicates guarantee fails.) -/
theorem C2_resolver_on_underscore_free (cols : List String)
    (hu : ∀ s ∈ cols, '_' ∉ s.data) :
    rename_duplicate_columns cols = specResolve cols ∧
      (rename_duplicate_columns cols).Nodup := by
  have he := rename_eq_specResolve cols hu
  refine ⟨he, ?_⟩
  rw [he]
  exact specResolveGo_nodup cols [] hu

theorem C2_witness :
    (∀ s ∈ (["a", "b", "a", "a"] : List String), '_' ∉ s.data) ∧
      rename_duplicate_columns ["a", "b", "a", "a"] = specResolve ["a", "b", "a", "a"] ∧
      (rename_duplicate_columns ["a", "b", "a", "a"]).Nodup ∧
      rename_duplicate_columns ["a", "b", "a", "a"] = ["a", "b", "a_2", "a_3"] :=
  ⟨by decide, (C2_resolver_on_underscore_free ["a", "b", "a", "a"] (by decide)).1,
   (C2_resolver_on_underscore_free ["a", "b", "a", "a"] (by decide)).2, by decide⟩
